import Mathlib

/-!
Shallow embedding of the content-based movie recommendation pipeline in
`recommend.py`: the text normalizer `preprocess_text`, the TF-IDF
vectorization performed by scikit-learn's `TfidfVectorizer` with
`stop_words='english'` and `ngram_range=(1, 2)` (all other parameters at
their defaults: `lowercase=True`, `token_pattern=r"(?u)\b\w\w+\b"`,
`norm='l2'`, `use_idf=True`, `smooth_idf=True`, `sublinear_tf=False`),
cosine similarity as computed by `sklearn.metrics.pairwise.cosine_similarity`
(each row L2-normalized with zero rows left as zero, then dotted), and the
top-N selection `cosine_sim.argsort()[-top_n:][::-1]` of
`get_recommendations`.

Strings are modelled as lists of characters; real-valued weights are
modelled over `ℝ` (the code computes in floating point; the model is exact).
The character classes mirror Python's ASCII behaviour of `\w`, `\s` and
`str.lower`.
-/

set_option maxRecDepth 40000

/-- Tokens and vocabulary terms are strings, modelled as lists of characters. -/
abbrev Tok := List Char

/-- Spelling of the stop-word list scikit-learn uses for
`stop_words='english'` (the frozen English list shipped with the library). -/
def english_stop_words : List Tok :=
  ([ "a", "about", "above", "across", "after", "afterwards", "again",
    "against", "all", "almost", "alone", "along", "already", "also",
    "although", "always", "am", "among", "amongst", "amoungst", "amount",
    "an", "and", "another", "any", "anyhow", "anyone", "anything", "anyway",
    "anywhere", "are", "around", "as", "at", "back", "be", "became",
    "because", "become", "becomes", "becoming", "been", "before",
    "beforehand", "behind", "being", "below", "beside", "besides",
    "between", "beyond", "bill", "both", "bottom", "but", "by", "call",
    "can", "cannot", "cant", "co", "con", "could", "couldnt", "cry", "de",
    "describe", "detail", "do", "done", "down", "due", "during", "each",
    "eg", "eight", "either", "eleven", "else", "elsewhere", "empty",
    "enough", "etc", "even", "ever", "every", "everyone", "everything",
    "everywhere", "except", "few", "fifteen", "fifty", "fill", "find",
    "fire", "first", "five", "for", "former", "formerly", "forty", "found",
    "four", "from", "front", "full", "further", "get", "give", "go", "had",
    "has", "hasnt", "have", "he", "hence", "her", "here", "hereafter",
    "hereby", "herein", "hereupon", "hers", "herself", "him", "himself",
    "his", "how", "however", "hundred", "i", "ie", "if", "in", "inc",
    "indeed", "interest", "into", "is", "it", "its", "itself", "keep",
    "last", "latter", "latterly", "least", "less", "ltd", "made", "many",
    "may", "me", "meanwhile", "might", "mill", "mine", "more", "moreover",
    "most", "mostly", "move", "much", "must", "my", "myself", "name",
    "namely", "neither", "never", "nevertheless", "next", "nine", "no",
    "nobody", "none", "noone", "nor", "not", "nothing", "now", "nowhere",
    "of", "off", "often", "on", "once", "one", "only", "onto", "or",
    "other", "others", "otherwise", "our", "ours", "ourselves", "out",
    "over", "own", "part", "per", "perhaps", "please", "put", "rather",
    "re", "same", "see", "seem", "seemed", "seeming", "seems", "serious",
    "several", "she", "should", "show", "side", "since", "sincere", "six",
    "sixty", "so", "some", "somehow", "someone", "something", "sometime",
    "sometimes", "somewhere", "still", "such", "system", "take", "ten",
    "than", "that", "the", "their", "them", "themselves", "then", "thence",
    "there", "thereafter", "thereby", "therefore", "therein", "thereupon",
    "these", "they", "thick", "thin", "third", "this", "those", "though",
    "three", "through", "throughout", "thru", "thus", "to", "together",
    "too", "top", "toward", "towards", "twelve", "twenty", "two", "un",
    "under", "until", "up", "upon", "us", "very", "via", "was", "we",
    "well", "were", "what", "whatever", "when", "whence", "whenever",
    "where", "whereafter", "whereas", "whereby", "wherein", "whereupon",
    "wherever", "whether", "which", "while", "whither", "who", "whoever",
    "whole", "whom", "whose", "why", "will", "with", "within", "without",
    "would", "yet", "you", "your", "yours", "yourself",
    "yourselves" ] : List String).map String.toList

/-- Membership in Python's regex class `\w` (alphanumeric or underscore). -/
def isWordChar (c : Char) : Bool := c.isAlphanum || c == '_'

/-- Membership in Python's regex class `\s` (ASCII whitespace). -/
def isSpaceChar (c : Char) : Bool :=
  c == ' ' || c == '\t' || c == '\n' || c == '\r' || c == '\x0b' || c == '\x0c'

/-- One character of `re.sub(r'[^\w\s]', ' ', text)`: the pattern matches a
single character that is neither a word character nor whitespace, and each
match is replaced by one space. -/
def subChar (c : Char) : Char := if !isWordChar c && !isSpaceChar c then ' ' else c

/-- Python's `str.lstrip` on our whitespace class. -/
def lstrip (l : List Char) : List Char := l.dropWhile isSpaceChar

/-- Python's `str.rstrip` on our whitespace class. -/
def rstrip (l : List Char) : List Char := (l.reverse.dropWhile isSpaceChar).reverse

/-- Python's `str.strip`: drop whitespace from both ends. -/
def strip (l : List Char) : List Char := rstrip (lstrip l)

/-- The normalizer `preprocess_text`: lowercase, replace every character that
is neither a word character nor whitespace by a space, then strip the ends. -/
def preprocess_text (s : List Char) : List Char :=
  strip ((s.map Char.toLower).map subChar)

/-- State step for splitting a character list into maximal runs of word
characters: the first component is the run currently being read (from the
right), the second the completed runs. -/
def runsAux (c : Char) (st : List Char × List (List Char)) :
    List Char × List (List Char) :=
  if isWordChar c then (c :: st.1, st.2)
  else ([], if st.1 = [] then st.2 else st.1 :: st.2)

/-- Maximal runs of word characters of a string, in order. -/
def wordRuns (l : List Char) : List (List Char) :=
  let st := l.foldr runsAux ([], [])
  if st.1 = [] then st.2 else st.1 :: st.2

/-- The vectorizer's tokenizer: lowercase the text and keep every maximal run
of word characters of length at least two (the default token pattern
matches only words of two or more word characters). -/
def tokenize (s : List Char) : List Tok :=
  (wordRuns (s.map Char.toLower)).filter (fun w => 2 ≤ w.length)

/-- Join two tokens into a bigram term with a single separating space. -/
def joinBigram (a b : Tok) : Tok := a ++ (' ' :: b)

/-- All bigrams of consecutive elements of a token list. -/
def bigrams : List Tok → List Tok
  | a :: b :: rest => joinBigram a b :: bigrams (b :: rest)
  | _ => []

/-- The vectorizer's analyzer with `ngram_range=(1, 2)`: tokenize, remove
stop-word tokens, then emit the surviving unigrams followed by the bigrams
of consecutive surviving tokens (scikit-learn filters stop words before
building n-grams). -/
def analyze (sw : List Tok) (s : List Char) : List Tok :=
  let fil := (tokenize s).filter (fun w => !sw.contains w)
  fil ++ bigrams fil

/-- Ordered insertion for a boolean comparison. -/
def binsert (le : α → α → Bool) (a : α) : List α → List α
  | [] => [a]
  | b :: l => if le a b then a :: b :: l else b :: binsert le a l

/-- Insertion sort for a boolean comparison (a stable sort). -/
def bsort (le : α → α → Bool) : List α → List α
  | [] => []
  | a :: l => binsert le a (bsort le l)

/-- Lexicographic comparison of character lists by code point, used for the
sorted vocabulary order scikit-learn produces. -/
def lexLe : List Char → List Char → Bool
  | [], _ => true
  | _ :: _, [] => false
  | a :: as, b :: bs => if a == b then lexLe as bs else decide (a.toNat < b.toNat)

/-- The fitted vocabulary: every term the analyzer produces on some corpus
document, deduplicated and sorted alphabetically. -/
def vocabOf (sw : List Tok) (docs : List (List Char)) : List Tok :=
  bsort lexLe ((docs.flatMap (analyze sw)).dedup)

/-- Document frequency of a term: the number of corpus documents containing it. -/
def dfOf (sw : List Tok) (docs : List (List Char)) (t : Tok) : ℕ :=
  docs.countP (fun d => (analyze sw d).contains t)

/-- Term frequency of a term in one text: its raw count among the analyzed terms. -/
def tfOf (sw : List Tok) (t : Tok) (s : List Char) : ℕ := (analyze sw s).count t

/-- The fitting error scikit-learn raises when no term survives filtering. -/
inductive VectorizeError where
  | EmptyVocabularyError
  deriving DecidableEq

/-- A fitted model: the vocabulary, the corpus size and the document
frequencies, from which the IDF weights are derived. -/
structure FittedModel where
  vocab : List Tok
  ndocs : ℕ
  docfreq : Tok → ℕ

/-- Fitting `TfidfVectorizer` on the text series as `build_tfidf_matrix`
does: fails with the empty-vocabulary error when no term survives
filtering, otherwise records vocabulary, corpus size and document
frequencies. -/
def build_tfidf_matrix (sw : List Tok) (docs : List (List Char)) :
    Except VectorizeError FittedModel :=
  if vocabOf sw docs = [] then .error .EmptyVocabularyError
  else .ok ⟨vocabOf sw docs, docs.length, dfOf sw docs⟩

/-- Smoothed inverse document frequency of scikit-learn's default
`smooth_idf=True`: idf(t) = ln((1 + N) / (1 + df(t))) + 1. -/
noncomputable def idfOf (sw : List Tok) (docs : List (List Char)) (t : Tok) : ℝ :=
  Real.log ((1 + docs.length) / (1 + dfOf sw docs t)) + 1

/-- Unnormalized TF-IDF vector of a text over the fitted vocabulary:
coordinate t is tf(t) * idf(t). -/
noncomputable def rawVec (sw : List Tok) (docs : List (List Char))
    (s : List Char) : List ℝ :=
  (vocabOf sw docs).map (fun t => (tfOf sw t s : ℝ) * idfOf sw docs t)

/-- Sum of squares of a real vector. -/
noncomputable def sumSq (v : List ℝ) : ℝ := (v.map (fun x => x * x)).sum

/-- Euclidean norm of a real vector. -/
noncomputable def l2norm (v : List ℝ) : ℝ := Real.sqrt (sumSq v)

/-- L2 normalization as scikit-learn performs it: a zero vector is left as
the zero vector, any other vector is divided by its norm. -/
noncomputable def l2normalize (v : List ℝ) : List ℝ :=
  if l2norm v = 0 then v else v.map (fun x => x / l2norm v)

/-- The encoder's `transform` (and each row of `fit_transform`): the
L2-normalized TF-IDF vector of a text over the fitted vocabulary. -/
noncomputable def transform (sw : List Tok) (docs : List (List Char))
    (s : List Char) : List ℝ :=
  l2normalize (rawVec sw docs s)

/-- Dot product of two real vectors of equal length. -/
noncomputable def dotp (a b : List ℝ) : ℝ :=
  ((a.zip b).map (fun p => p.1 * p.2)).sum

/-- Cosine similarity as `sklearn.metrics.pairwise.cosine_similarity`
computes it: L2-normalize each argument (zero vectors stay zero) and take
the dot product, so any similarity involving a zero vector is 0. -/
noncomputable def cosSim (a b : List ℝ) : ℝ := dotp (l2normalize a) (l2normalize b)

/-- The flattened similarity row of `get_recommendations`: entry i is the
cosine similarity of the preprocessed query's vector with corpus document
i's vector. -/
noncomputable def simsFor (sw : List Tok) (docs : List (List Char))
    (query : List Char) : List ℝ :=
  docs.map (fun d => cosSim (transform sw docs (preprocess_text query))
    (transform sw docs d))

/-- Numpy's `argsort` on a real vector with the default `kind='quicksort'`.
Numpy documents this introsort as not stable, so for ties it guarantees only
SOME ascending reordering of the indices; the model fixes one concrete such
reordering, the stable one (indices with equal values kept in ascending
index order, i.e. sorted by the lexicographic order on (value, index)).
This choice agrees with numpy exactly on small inputs — below numpy's
16-element insertion-sort threshold the real introsort is stable, which
covers the concrete scenarios proved here — and universal theorems about
this definition must rely only on properties shared by every ascending
argsort (length, being a permutation of the index range, value-sortedness),
never on the modelled order among tied indices. -/
noncomputable def argsort (s : List ℝ) : List ℕ :=
  bsort (fun i j => decide (s.getD i 0 < s.getD j 0 ∨
    (s.getD i 0 = s.getD j 0 ∧ i ≤ j))) (List.range s.length)

/-- Python's slice `l[-k:]` with the literal argument `-k` for a natural
number k: for k = 0 the slice `l[0:]` is the whole list, otherwise the
last min(k, length) elements. -/
def pySliceLast (k : ℕ) (l : List α) : List α :=
  if k = 0 then l else l.drop (l.length - k)

/-- The index selection `cosine_sim.argsort()[-top_n:][::-1]`. -/
noncomputable def topIndices (s : List ℝ) (top_n : ℕ) : List ℕ :=
  (pySliceLast top_n (argsort s)).reverse

/-- The ranked document indices `get_recommendations` returns (the rows of
`df.iloc[top_indices]`, in order). -/
noncomputable def get_recommendations (sw : List Tok) (docs : List (List Char))
    (query : List Char) (top_n : ℕ) : List ℕ :=
  topIndices (simsFor sw docs query) top_n

/-- The similarity column of the returned ranking: the similarity score of
each ranked document, in ranked order. -/
noncomputable def rankedScores (sw : List Tok) (docs : List (List Char))
    (query : List Char) (top_n : ℕ) : List ℝ :=
  (get_recommendations sw docs query top_n).map
    (fun i => (simsFor sw docs query).getD i 0)

/-! Character-level facts about lowercasing and substitution. -/

theorem charToNatOfNat (n : Nat) (hv : n.isValidChar) : (Char.ofNat n).toNat = n := by
  unfold Char.ofNat
  rw [dif_pos hv]
  rfl

theorem toLower_toLower (c : Char) :
    Char.toLower (Char.toLower c) = Char.toLower c := by
  unfold Char.toLower
  by_cases h : c.toNat ≥ 65 ∧ c.toNat ≤ 90
  · rw [if_pos h]
    have ht : (Char.ofNat (c.toNat + 32)).toNat = c.toNat + 32 :=
      charToNatOfNat _ (Or.inl (by omega))
    rw [if_neg (by rw [ht]; omega)]
  · rw [if_neg h, if_neg h]

theorem toLower_not_ascii_upper (c : Char) :
    ¬(65 ≤ (Char.toLower c).toNat ∧ (Char.toLower c).toNat ≤ 90) := by
  unfold Char.toLower
  by_cases h : c.toNat ≥ 65 ∧ c.toNat ≤ 90
  · rw [if_pos h]
    rw [charToNatOfNat _ (Or.inl (by omega))]
    omega
  · rw [if_neg h]
    omega

theorem subChar_word_or_space (c : Char) :
    isWordChar (subChar c) = true ∨ isSpaceChar (subChar c) = true := by
  unfold subChar
  by_cases h : (!isWordChar c && !isSpaceChar c) = true
  · rw [if_pos h]
    right
    decide
  · rw [if_neg h]
    simp only [Bool.and_eq_true, Bool.not_eq_true', not_and, Bool.not_eq_false] at h
    by_cases hw : isWordChar c = true
    · exact Or.inl hw
    · exact Or.inr (h (by simpa using hw))

theorem subLower_word_or_space (c : Char) :
    isWordChar (subChar (Char.toLower c)) = true ∨
      isSpaceChar (subChar (Char.toLower c)) = true :=
  subChar_word_or_space _

theorem subLower_not_ascii_upper (c : Char) :
    ¬(65 ≤ (subChar (Char.toLower c)).toNat ∧
      (subChar (Char.toLower c)).toNat ≤ 90) := by
  unfold subChar
  by_cases h : (!isWordChar (Char.toLower c) && !isSpaceChar (Char.toLower c)) = true
  · rw [if_pos h]
    decide
  · rw [if_neg h]
    exact toLower_not_ascii_upper c

theorem subLower_idem (c : Char) :
    subChar (Char.toLower (subChar (Char.toLower c))) = subChar (Char.toLower c) := by
  by_cases h : (!isWordChar (Char.toLower c) && !isSpaceChar (Char.toLower c)) = true
  · have h1 : subChar (Char.toLower c) = ' ' := by
      unfold subChar
      rw [if_pos h]
    rw [h1]
    decide
  · have h1 : subChar (Char.toLower c) = Char.toLower c := by
      unfold subChar
      rw [if_neg h]
    rw [h1, toLower_toLower, h1]

/-! Facts about dropWhile and stripping. -/

theorem dropWhile_dropWhile_self (p : α → Bool) (l : List α) :
    (l.dropWhile p).dropWhile p = l.dropWhile p := by
  induction l with
  | nil => rfl
  | cons a t ih =>
    by_cases h : p a
    · simp only [List.dropWhile_cons, h, if_true]
      exact ih
    · simp only [List.dropWhile_cons, h, if_false, eq_self_iff_true]
      simp [List.dropWhile_cons, h]

theorem head_false_of_dropWhile_cons (p : α → Bool) (l : List α) (a : α) (t : List α)
    (h : l.dropWhile p = a :: t) : p a = false := by
  induction l with
  | nil => simp at h
  | cons b r ih =>
    rw [List.dropWhile_cons] at h
    by_cases hb : p b
    · rw [if_pos hb] at h
      exact ih h
    · rw [if_neg hb] at h
      cases h
      simpa using hb

theorem mem_of_mem_dropWhile (p : α → Bool) (l : List α) (x : α)
    (h : x ∈ l.dropWhile p) : x ∈ l := by
  induction l with
  | nil => simp at h
  | cons b r ih =>
    rw [List.dropWhile_cons] at h
    by_cases hb : p b
    · rw [if_pos hb] at h
      exact List.mem_cons_of_mem _ (ih h)
    · rw [if_neg hb] at h
      exact h

theorem lstrip_lstrip (l : List Char) : lstrip (lstrip l) = lstrip l :=
  dropWhile_dropWhile_self _ _

theorem rstrip_rstrip (l : List Char) : rstrip (rstrip l) = rstrip l := by
  unfold rstrip
  rw [List.reverse_reverse, dropWhile_dropWhile_self]

theorem rstrip_append (l : List Char) :
    rstrip l ++ (l.reverse.takeWhile isSpaceChar).reverse = l := by
  unfold rstrip
  rw [← List.reverse_append, List.takeWhile_append_dropWhile, List.reverse_reverse]

theorem lstrip_rstrip_of_lstripped (m : List Char) (h : lstrip m = m) :
    lstrip (rstrip m) = rstrip m := by
  rcases he : rstrip m with _ | ⟨a, t⟩
  · rfl
  · have hm : m = a :: (t ++ (m.reverse.takeWhile isSpaceChar).reverse) := by
      have := rstrip_append m
      rw [he] at this
      simpa using this.symm
    have ha : isSpaceChar a = false := by
      have hd : m.dropWhile isSpaceChar = m := h
      rw [hm] at hd
      exact head_false_of_dropWhile_cons _ _ _ _ hd
    unfold lstrip
    rw [List.dropWhile_cons, ha]
    simp

theorem lstrip_strip (l : List Char) : lstrip (strip l) = strip l := by
  unfold strip
  exact lstrip_rstrip_of_lstripped _ (lstrip_lstrip l)

theorem rstrip_strip (l : List Char) : rstrip (strip l) = strip l := by
  unfold strip
  rw [rstrip_rstrip]

theorem strip_strip (l : List Char) : strip (strip l) = strip l := by
  show rstrip (lstrip (strip l)) = strip l
  rw [lstrip_strip, rstrip_strip]

theorem mem_of_mem_strip (l : List Char) (x : Char) (h : x ∈ strip l) : x ∈ l := by
  unfold strip rstrip lstrip at h
  rw [List.mem_reverse] at h
  have h2 := mem_of_mem_dropWhile _ _ _ h
  rw [List.mem_reverse] at h2
  exact mem_of_mem_dropWhile _ _ _ h2

theorem map_eq_self_of_fixed {f : α → α} (l : List α) (h : ∀ a ∈ l, f a = a) :
    l.map f = l := by
  induction l with
  | nil => rfl
  | cons a t ih =>
    rw [List.map_cons, h a (List.mem_cons_self ..), ih (fun b hb => h b (List.mem_cons_of_mem _ hb))]

/-- C4 (amended): the normalizer lowercases all characters and replaces each
single character that is neither a word character (alphanumeric or
underscore) nor whitespace with one space — so a run of k punctuation
characters becomes k spaces, not one, and whitespace characters are left
unchanged — then trims leading and trailing whitespace. Every character of
the output is a word character or whitespace, no ASCII uppercase letter
survives, the output is left- and right-stripped, and on concrete inputs
the quote of "Don't" becomes a single space while a two-character
punctuation run becomes two spaces. -/
theorem preprocess_text_charwise :
    (∀ s : List Char,
      (∀ c ∈ preprocess_text s, isWordChar c = true ∨ isSpaceChar c = true) ∧
      (∀ c ∈ preprocess_text s, ¬(65 ≤ c.toNat ∧ c.toNat ≤ 90)) ∧
      lstrip (preprocess_text s) = preprocess_text s ∧
      rstrip (preprocess_text s) = preprocess_text s) ∧
    preprocess_text ("Don't".toList) = "don t".toList ∧
    preprocess_text ("a!?b".toList) = "a  b".toList := by
  refine ⟨fun s => ?_, by decide, by decide⟩
  have hmem : ∀ c ∈ preprocess_text s, ∃ c0, c = subChar (Char.toLower c0) := by
    intro c hc
    have h2 := mem_of_mem_strip _ _ hc
    rw [List.map_map] at h2
    obtain ⟨c0, -, rfl⟩ := List.mem_map.1 h2
    exact ⟨c0, rfl⟩
  refine ⟨?_, ?_, lstrip_strip _, rstrip_strip _⟩
  · intro c hc
    obtain ⟨c0, rfl⟩ := hmem c hc
    exact subLower_word_or_space c0
  · intro c hc
    obtain ⟨c0, rfl⟩ := hmem c hc
    exact subLower_not_ascii_upper c0

/-- Witness for C4: the amended claim instantiated at the input "Don't" and
the character 'd' of its normalized form. -/
theorem preprocess_text_charwise_witness :
    (isWordChar 'd' = true ∨ isSpaceChar 'd' = true) ∧
      ¬(65 ≤ 'd'.toNat ∧ 'd'.toNat ≤ 90) :=
  ⟨(preprocess_text_charwise.1 ("Don't".toList)).1 'd' (by decide),
   (preprocess_text_charwise.1 ("Don't".toList)).2.1 'd' (by decide)⟩

/-- C4 counterexample: the claim says a maximal run of punctuation characters
is replaced by a single space, so it predicts normalize("a!!b") = "a b"; the
code replaces each punctuation character separately and yields "a  b" with
two spaces. -/
theorem preprocess_text_run_counterexample :
    preprocess_text ("a!!b".toList) = "a  b".toList ∧
      "a  b".toList ≠ "a b".toList := by
  exact ⟨by decide, by decide⟩

/-- C9: text normalization is idempotent — normalizing an already normalized
string changes nothing. -/
theorem preprocess_text_idem (s : List Char) :
    preprocess_text (preprocess_text s) = preprocess_text s := by
  unfold preprocess_text
  rw [List.map_map, List.map_map]
  have hfix : ∀ x ∈ strip (s.map (subChar ∘ Char.toLower)),
      (subChar ∘ Char.toLower) x = x := by
    intro x hx
    have hx2 := mem_of_mem_strip _ _ hx
    obtain ⟨c, -, rfl⟩ := List.mem_map.1 hx2
    exact subLower_idem c
  rw [map_eq_self_of_fixed _ hfix, strip_strip]

/-! Facts about insertion sort with a boolean comparison. -/

theorem binsert_perm (le : α → α → Bool) (a : α) (l : List α) :
    (binsert le a l).Perm (a :: l) := by
  induction l with
  | nil => exact List.Perm.refl _
  | cons b t ih =>
    unfold binsert
    by_cases h : le a b
    · rw [if_pos h]
    · rw [if_neg h]
      exact (ih.cons b).trans (List.Perm.swap a b t)

theorem bsort_perm (le : α → α → Bool) (l : List α) : (bsort le l).Perm l := by
  induction l with
  | nil => exact List.Perm.refl _
  | cons a t ih =>
    exact (binsert_perm le a (bsort le t)).trans (ih.cons a)

theorem mem_binsert (le : α → α → Bool) (a x : α) (l : List α) :
    x ∈ binsert le a l ↔ x = a ∨ x ∈ l := by
  rw [(binsert_perm le a l).mem_iff, List.mem_cons]

theorem pairwise_binsert (le : α → α → Bool)
    (htot : ∀ a b, le a b = true ∨ le b a = true)
    (htr : ∀ a b c, le a b = true → le b c = true → le a c = true)
    (a : α) (l : List α) (h : l.Pairwise (fun x y => le x y = true)) :
    (binsert le a l).Pairwise (fun x y => le x y = true) := by
  induction l with
  | nil => simp [binsert]
  | cons b t ih =>
    unfold binsert
    rcases List.pairwise_cons.1 h with ⟨hb, ht⟩
    by_cases hab : le a b = true
    · rw [if_pos hab]
      refine List.pairwise_cons.2 ⟨?_, h⟩
      intro x hx
      rcases List.mem_cons.1 hx with rfl | hx
      · exact hab
      · exact htr _ _ _ hab (hb x hx)
    · rw [if_neg hab]
      have hba : le b a = true := (htot a b).resolve_left hab
      refine List.pairwise_cons.2 ⟨?_, ih ht⟩
      intro x hx
      rcases (mem_binsert ..).1 hx with rfl | hx
      · exact hba
      · exact hb x hx

theorem pairwise_bsort (le : α → α → Bool)
    (htot : ∀ a b, le a b = true ∨ le b a = true)
    (htr : ∀ a b c, le a b = true → le b c = true → le a c = true)
    (l : List α) : (bsort le l).Pairwise (fun x y => le x y = true) := by
  induction l with
  | nil => simp [bsort]
  | cons a t ih => exact pairwise_binsert le htot htr a _ ih

/-! Facts about the argsort-based index selection. -/

theorem argsort_perm (s : List ℝ) : (argsort s).Perm (List.range s.length) :=
  bsort_perm _ _

theorem length_argsort (s : List ℝ) : (argsort s).length = s.length := by
  rw [(argsort_perm s).length_eq, List.length_range]

theorem nodup_argsort (s : List ℝ) : (argsort s).Nodup :=
  (argsort_perm s).nodup_iff.2 (List.nodup_range _)

theorem pairwise_argsort (s : List ℝ) :
    (argsort s).Pairwise (fun i j => s.getD i 0 < s.getD j 0 ∨
      (s.getD i 0 = s.getD j 0 ∧ i ≤ j)) := by
  have h := pairwise_bsort
    (fun i j => decide (s.getD i 0 < s.getD j 0 ∨ (s.getD i 0 = s.getD j 0 ∧ i ≤ j)))
    (fun a b => by
      rcases lt_trichotomy (s.getD a 0) (s.getD b 0) with h | h | h
      · left; exact decide_eq_true (Or.inl h)
      · rcases Nat.le_total a b with hab | hab
        · left; exact decide_eq_true (Or.inr ⟨h, hab⟩)
        · right; exact decide_eq_true (Or.inr ⟨h.symm, hab⟩)
      · right; exact decide_eq_true (Or.inl h))
    (fun a b c hab hbc => by
      have h1 := of_decide_eq_true hab
      have h2 := of_decide_eq_true hbc
      refine decide_eq_true ?_
      rcases h1 with h1 | ⟨h1, h1n⟩
      · rcases h2 with h2 | ⟨h2, -⟩
        · exact Or.inl (h1.trans h2)
        · exact Or.inl (h2 ▸ h1)
      · rcases h2 with h2 | ⟨h2, h2n⟩
        · exact Or.inl (h1 ▸ h2)
        · exact Or.inr ⟨h1.trans h2, h1n.trans h2n⟩)
    (List.range s.length)
  exact h.imp (fun hx => of_decide_eq_true hx)

theorem pySliceLast_sublist (k : ℕ) (l : List α) : (pySliceLast k l).Sublist l := by
  unfold pySliceLast
  by_cases h : k = 0
  · rw [if_pos h]
  · rw [if_neg h]
    exact List.drop_sublist _ _

theorem length_pySliceLast (k : ℕ) (l : List α) (hk : 1 ≤ k) :
    (pySliceLast k l).length = min k l.length := by
  unfold pySliceLast
  rw [if_neg (by omega)]
  rw [List.length_drop]
  omega

/-! Facts about the analyzer and the vocabulary. -/

theorem space_mem_of_mem_bigrams : ∀ (l : List Tok) (t : Tok), t ∈ bigrams l → ' ' ∈ t
  | [], t, h => by simp [bigrams] at h
  | [a], t, h => by simp [bigrams] at h
  | a :: b :: rest, t, h => by
    rw [show bigrams (a :: b :: rest) = joinBigram a b :: bigrams (b :: rest) from rfl] at h
    rcases List.mem_cons.1 h with rfl | h
    · unfold joinBigram
      exact List.mem_append.2 (Or.inr (List.mem_cons_self ..))
    · exact space_mem_of_mem_bigrams (b :: rest) t h

theorem mem_vocabOf (sw : List Tok) (docs : List (List Char)) (t : Tok) :
    t ∈ vocabOf sw docs ↔ ∃ d ∈ docs, t ∈ analyze sw d := by
  unfold vocabOf
  rw [(bsort_perm ..).mem_iff, List.mem_dedup, List.mem_flatMap]

/-- C2: fitting the vectorizer on a corpus in which zero terms survive
filtering fails with the empty-vocabulary error instead of producing a
zero-dimensional model; in particular fitting on the two-document corpus
["", ""] fails that way. -/
theorem build_tfidf_matrix_empty_vocab :
    (∀ (sw : List Tok) (docs : List (List Char)),
        (∀ d ∈ docs, analyze sw d = []) →
        build_tfidf_matrix sw docs = .error .EmptyVocabularyError) ∧
    build_tfidf_matrix english_stop_words ["".toList, "".toList] =
      .error .EmptyVocabularyError := by
  have hgen : ∀ (sw : List Tok) (docs : List (List Char)),
      (∀ d ∈ docs, analyze sw d = []) →
      build_tfidf_matrix sw docs = .error .EmptyVocabularyError := by
    intro sw docs h
    have hv : vocabOf sw docs = [] := by
      unfold vocabOf
      rw [List.flatMap_eq_nil_iff.2 h]
      rfl
    unfold build_tfidf_matrix
    rw [if_pos hv]
  exact ⟨hgen, hgen _ _ (by decide)⟩

/-- Witness for C2: a corpus of one empty document analyzes to no terms, and
fitting on it reports the empty vocabulary. -/
theorem build_tfidf_matrix_empty_vocab_witness :
    build_tfidf_matrix english_stop_words ["".toList] =
      .error .EmptyVocabularyError :=
  build_tfidf_matrix_empty_vocab.1 english_stop_words ["".toList] (by decide)

/-- C3 (amended): every unigram that is a stop word is excluded from the
vocabulary — in fact no vocabulary term at all is a stop word — but bigrams
are formed from the stop-word-FILTERED token sequence, not from consecutive
words of the original document: a bigram containing a stop-word constituent
is never produced, while a bigram spanning a removed stop word is. On the
corpus ["travel to space"] the vocabulary is exactly ["space", "travel",
"travel space"]. -/
theorem vocab_stopword_handling :
    (∀ (sw : List Tok) (docs : List (List Char)) (t : Tok),
        (∀ w ∈ sw, ' ' ∉ w) → t ∈ vocabOf sw docs → t ∉ sw) ∧
    vocabOf english_stop_words ["travel to space".toList] =
      ["space".toList, "travel".toList, "travel space".toList] := by
  constructor
  · intro sw docs t hsw ht hmem
    obtain ⟨d, -, hd⟩ := (mem_vocabOf ..).1 ht
    unfold analyze at hd
    rcases List.mem_append.1 hd with hd | hd
    · have hp := (List.mem_filter.1 hd).2
      have he : List.elem t sw = true := List.elem_iff.2 hmem
      rw [show sw.contains t = List.elem t sw from rfl, he] at hp
      simp at hp
    · exact hsw t hmem (space_mem_of_mem_bigrams _ _ hd)
  · decide

/-- Witness for C3: no English stop word contains a space, "travel space" is
in the fitted vocabulary of ["travel to space"], and therefore it is not a
stop word. -/
theorem vocab_stopword_handling_witness :
    "travel space".toList ∉ english_stop_words :=
  vocab_stopword_handling.1 english_stop_words ["travel to space".toList]
    ("travel space".toList) (by decide) (by decide)

/-- C3 counterexample: in the document "travel to space" the words "to" and
"space" are consecutive and "to" is a stop word, yet neither "to space" nor
"travel to" is retained in the vocabulary; instead the bigram
"travel space", which never occurs as two consecutive words of the original
document, is — the analyzer removes stop words before forming bigrams. -/
theorem vocab_bigram_counterexample :
    tokenize "travel to space".toList =
      ["travel".toList, "to".toList, "space".toList] ∧
    "to".toList ∈ english_stop_words ∧
    "to space".toList ∉ vocabOf english_stop_words ["travel to space".toList] ∧
    "travel to".toList ∉ vocabOf english_stop_words ["travel to space".toList] ∧
    "travel space".toList ∈ vocabOf english_stop_words ["travel to space".toList] := by
  exact ⟨by decide, by decide, by decide, by decide, by decide⟩

theorem length_simsFor (sw : List Tok) (docs : List (List Char)) (q : List Char) :
    (simsFor sw docs q).length = docs.length := by
  unfold simsFor
  rw [List.length_map]

/-- C5: for every query, corpus and positive top_n, the ranking has exactly
min(top_n, corpus size) entries, and an empty corpus yields the empty
ranking rather than an error. -/
theorem get_recommendations_length :
    ∀ (sw : List Tok) (docs : List (List Char)) (q : List Char) (n : ℕ),
      1 ≤ n →
      (get_recommendations sw docs q n).length = min n docs.length ∧
      (docs = [] → get_recommendations sw docs q n = []) := by
  intro sw docs q n hn
  have h1 : (get_recommendations sw docs q n).length = min n docs.length := by
    unfold get_recommendations topIndices
    rw [List.length_reverse, length_pySliceLast _ _ hn, length_argsort, length_simsFor]
  refine ⟨h1, fun hd => ?_⟩
  apply List.length_eq_zero.1
  rw [h1, hd]
  simp

/-- Witness for C5: top_n = 5 against a two-document corpus returns exactly
2 ranked results, and the empty corpus returns the empty ranking. -/
theorem get_recommendations_length_witness :
    (get_recommendations english_stop_words
      ["space travel".toList, "murder mystery".toList] "space".toList 5).length = 2 ∧
    get_recommendations english_stop_words [] "space".toList 5 = [] :=
  ⟨((get_recommendations_length english_stop_words
      ["space travel".toList, "murder mystery".toList] "space".toList 5
      (by norm_num)).1).trans (by norm_num),
   (get_recommendations_length english_stop_words [] "space".toList 5
      (by norm_num)).2 rfl⟩

/-- C10: called with top_n = 0, the slice argsort()[-0:] selects the whole
array, so get_recommendations returns a ranking of every corpus document
(a permutation of all document indices); for a nonempty corpus the length
bound len(result) ≤ top_n therefore fails. -/
theorem get_recommendations_topn_zero :
    ∀ (sw : List Tok) (docs : List (List Char)) (q : List Char),
      (get_recommendations sw docs q 0).length = docs.length ∧
      (get_recommendations sw docs q 0).Perm (List.range docs.length) ∧
      (docs ≠ [] → ¬((get_recommendations sw docs q 0).length ≤ 0)) := by
  intro sw docs q
  have hperm : (get_recommendations sw docs q 0).Perm (List.range docs.length) := by
    unfold get_recommendations topIndices pySliceLast
    rw [if_pos rfl]
    have h := argsort_perm (simsFor sw docs q)
    rw [length_simsFor] at h
    exact (List.reverse_perm _).trans h
  have hlen : (get_recommendations sw docs q 0).length = docs.length := by
    rw [hperm.length_eq, List.length_range]
  refine ⟨hlen, hperm, fun hd hle => ?_⟩
  have h0 : docs.length ≠ 0 := fun h => hd (List.length_eq_zero.1 h)
  omega

/-- Witness for C10: with top_n = 0 and a two-document corpus the ranking
has 2 entries, violating the length bound. -/
theorem get_recommendations_topn_zero_witness :
    (get_recommendations english_stop_words
      ["space".toList, "murder".toList] "space".toList 0).length = 2 ∧
    ¬((get_recommendations english_stop_words
      ["space".toList, "murder".toList] "space".toList 0).length ≤ 0) :=
  ⟨(get_recommendations_topn_zero english_stop_words
      ["space".toList, "murder".toList] "space".toList).1.trans rfl,
   (get_recommendations_topn_zero english_stop_words
      ["space".toList, "murder".toList] "space".toList).2.2 (by decide)⟩

/-- C1 (amended): the ranked results are sorted in descending
(non-increasing) order of cosine similarity. The claimed ascending-index
tie-break does not hold (see the counterexample, where the larger index
comes first), and since numpy's default quicksort argsort is not stable,
no particular order among equal scores is guaranteed in general; this
theorem therefore asserts only value-sortedness, which holds for every
ascending argsort regardless of its tie order. -/
theorem get_recommendations_descending (sw : List Tok) (docs : List (List Char))
    (q : List Char) (n : ℕ) :
    (get_recommendations sw docs q n).Pairwise (fun i j =>
      (simsFor sw docs q).getD j 0 ≤ (simsFor sw docs q).getD i 0) := by
  have h2 := (pairwise_argsort (simsFor sw docs q)).sublist
    (pySliceLast_sublist n (argsort (simsFor sw docs q)))
  unfold get_recommendations topIndices
  refine List.pairwise_reverse.2 (h2.imp ?_)
  rintro a b (hab | ⟨heq, -⟩)
  · exact hab.le
  · exact heq.le

/-! Facts about sums of squares, norms and normalization. -/

theorem sumSq_nonneg (v : List ℝ) : 0 ≤ sumSq v := by
  induction v with
  | nil => simp [sumSq]
  | cons a t ih =>
    unfold sumSq at ih ⊢
    rw [List.map_cons, List.sum_cons]
    exact add_nonneg (mul_self_nonneg a) ih

theorem sumSq_eq_zero_iff (v : List ℝ) : sumSq v = 0 ↔ ∀ x ∈ v, x = 0 := by
  induction v with
  | nil => simp [sumSq]
  | cons a t ih =>
    unfold sumSq at ih ⊢
    rw [List.map_cons, List.sum_cons]
    constructor
    · intro h x hx
      have ha : a * a = 0 ∧ (t.map (fun x => x * x)).sum = 0 := by
        constructor
        · nlinarith [sumSq_nonneg t, mul_self_nonneg a, show sumSq t = (t.map (fun x => x * x)).sum from rfl]
        · nlinarith [sumSq_nonneg t, mul_self_nonneg a, show sumSq t = (t.map (fun x => x * x)).sum from rfl]
      rcases List.mem_cons.1 hx with rfl | hx
      · exact mul_self_eq_zero.1 ha.1
      · exact ih.1 ha.2 x hx
    · intro h
      rw [h a (List.mem_cons_self ..), ih.2 (fun x hx => h x (List.mem_cons_of_mem _ hx))]
      ring

theorem l2norm_nonneg (v : List ℝ) : 0 ≤ l2norm v := Real.sqrt_nonneg _

theorem l2norm_eq_zero_iff (v : List ℝ) : l2norm v = 0 ↔ ∀ x ∈ v, x = 0 := by
  unfold l2norm
  rw [Real.sqrt_eq_zero (sumSq_nonneg v), sumSq_eq_zero_iff]

theorem sumSq_map_div (v : List ℝ) (n : ℝ) :
    sumSq (v.map (fun x => x / n)) = sumSq v * (n * n)⁻¹ := by
  unfold sumSq
  rw [List.map_map]
  have hf : ((fun x => x * x) ∘ fun x : ℝ => x / n) = fun x : ℝ => (x * x) * (n * n)⁻¹ := by
    funext x
    simp only [Function.comp]
    ring
  rw [hf, List.sum_map_mul_right]

theorem l2norm_map_div (v : List ℝ) (n : ℝ) (hn : 0 < n) :
    l2norm (v.map (fun x => x / n)) = l2norm v / n := by
  unfold l2norm
  rw [sumSq_map_div, Real.sqrt_mul (sumSq_nonneg v), Real.sqrt_inv,
    Real.sqrt_mul_self hn.le, div_eq_mul_inv]

theorem l2norm_l2normalize (v : List ℝ) (h : l2norm v ≠ 0) :
    l2norm (l2normalize v) = 1 := by
  unfold l2normalize
  rw [if_neg h]
  have hpos : 0 < l2norm v := lt_of_le_of_ne (l2norm_nonneg v) (Ne.symm h)
  rw [l2norm_map_div v _ hpos, div_self h]

theorem l2normalize_of_zero (v : List ℝ) (h : ∀ x ∈ v, x = 0) :
    l2normalize v = v := by
  unfold l2normalize
  rw [if_pos ((l2norm_eq_zero_iff v).2 h)]

theorem mem_l2normalize_zero_iff (v : List ℝ) :
    (∀ x ∈ l2normalize v, x = 0) ↔ ∀ x ∈ v, x = 0 := by
  unfold l2normalize
  by_cases h : l2norm v = 0
  · rw [if_pos h]
  · rw [if_neg h]
    constructor
    · intro hz x hx
      have := hz (x / l2norm v) (List.mem_map.2 ⟨x, hx, rfl⟩)
      rcases div_eq_zero_iff.1 this with h1 | h1
      · exact h1
      · exact absurd h1 h
    · intro hz x hx
      obtain ⟨y, hy, rfl⟩ := List.mem_map.1 hx
      rw [hz y hy]
      simp

theorem dotp_zero_left : ∀ (a b : List ℝ), (∀ x ∈ a, x = 0) → dotp a b = 0
  | [], _, _ => by simp [dotp]
  | _ :: _, [], _ => by simp [dotp]
  | x :: t, y :: u, h => by
    unfold dotp
    rw [List.zip_cons_cons, List.map_cons, List.sum_cons]
    rw [h x (List.mem_cons_self ..), zero_mul, zero_add]
    exact dotp_zero_left t u (fun z hz => h z (List.mem_cons_of_mem _ hz))

theorem getD_zero_of_all_zero (l : List ℝ) (i : ℕ) (h : ∀ x ∈ l, x = 0) :
    l.getD i 0 = 0 := by
  rw [List.getD_eq_getElem?_getD]
  rcases hx : l[i]? with - | x
  · rfl
  · exact h x (List.getElem?_mem hx)

/-! Facts about the IDF weights and TF-IDF vectors. -/

theorem idfOf_pos (sw : List Tok) (docs : List (List Char)) (t : Tok) :
    0 < idfOf sw docs t := by
  unfold idfOf
  have hdf : (dfOf sw docs t : ℝ) ≤ (docs.length : ℝ) :=
    Nat.cast_le.2 (List.countP_le_length _)
  have h1 : (1 : ℝ) ≤ (1 + docs.length) / (1 + dfOf sw docs t) := by
    rw [one_le_div (by positivity)]
    linarith
  have := Real.log_nonneg h1
  linarith

theorem rawVec_nonneg (sw : List Tok) (docs : List (List Char)) (s : List Char) :
    ∀ x ∈ rawVec sw docs s, 0 ≤ x := by
  intro x hx
  obtain ⟨t, -, rfl⟩ := List.mem_map.1 hx
  exact mul_nonneg (Nat.cast_nonneg _) (idfOf_pos sw docs t).le

theorem rawVec_zero_iff (sw : List Tok) (docs : List (List Char)) (s : List Char) :
    (∀ x ∈ rawVec sw docs s, x = 0) ↔
      ∀ t ∈ vocabOf sw docs, t ∉ analyze sw s := by
  constructor
  · intro h t ht
    have hx := h _ (List.mem_map.2 ⟨t, ht, rfl⟩)
    rcases mul_eq_zero.1 hx with h1 | h1
    · rw [← List.count_eq_zero]
      exact_mod_cast h1
    · exact absurd h1 (idfOf_pos sw docs t).ne'
  · intro h x hx
    obtain ⟨t, ht, rfl⟩ := List.mem_map.1 hx
    have : tfOf sw t s = 0 := by
      unfold tfOf
      exact List.count_eq_zero.2 (h t ht)
    rw [this]
    simp

/-- C6: for every vocabulary term the inverse document frequency equals
ln((1 + N) / (1 + df(t))) + 1, where N is the corpus size and df(t) the
number of documents containing t, and this weight is strictly positive. -/
theorem idf_formula (sw : List Tok) (docs : List (List Char)) (t : Tok)
    (_h : t ∈ vocabOf sw docs) :
    idfOf sw docs t =
      Real.log ((1 + docs.length) / (1 + dfOf sw docs t)) + 1 ∧
    0 < idfOf sw docs t :=
  ⟨rfl, idfOf_pos sw docs t⟩

/-- Witness for C6: the formula and its positivity at the vocabulary term
"space" of the one-document corpus ["space"]. -/
theorem idf_formula_witness :
    idfOf english_stop_words ["space".toList] "space".toList =
      Real.log ((1 + (["space".toList] : List (List Char)).length) /
        (1 + dfOf english_stop_words ["space".toList] "space".toList)) + 1 ∧
    0 < idfOf english_stop_words ["space".toList] "space".toList :=
  idf_formula english_stop_words ["space".toList] "space".toList (by decide)

/-- C7: every vector the encoder produces (for a corpus document or a query)
has Euclidean norm 1 or is the zero vector; it is the zero vector exactly
when the source text shares no analyzed term with the vocabulary; and all
its weights are non-negative. -/
theorem transform_normalized (sw : List Tok) (docs : List (List Char))
    (s : List Char) :
    (l2norm (transform sw docs s) = 1 ∨ ∀ x ∈ transform sw docs s, x = 0) ∧
    ((∀ x ∈ transform sw docs s, x = 0) ↔
      ∀ t ∈ analyze sw s, t ∉ vocabOf sw docs) ∧
    (∀ x ∈ transform sw docs s, 0 ≤ x) := by
  refine ⟨?_, ?_, ?_⟩
  · by_cases h : l2norm (rawVec sw docs s) = 0
    · right
      unfold transform
      rw [l2normalize_of_zero _ ((l2norm_eq_zero_iff _).1 h)]
      exact (l2norm_eq_zero_iff _).1 h
    · left
      exact l2norm_l2normalize _ h
  · unfold transform
    rw [mem_l2normalize_zero_iff, rawVec_zero_iff]
    constructor
    · intro h t ht hv
      exact h t hv ht
    · intro h t ht hv
      exact h t hv ht
  · intro x hx
    unfold transform l2normalize at hx
    by_cases h : l2norm (rawVec sw docs s) = 0
    · rw [if_pos h] at hx
      exact rawVec_nonneg sw docs s x hx
    · rw [if_neg h] at hx
      obtain ⟨y, hy, rfl⟩ := List.mem_map.1 hx
      exact div_nonneg (rawVec_nonneg sw docs s y hy) (l2norm_nonneg _)

/-- C8: a query all of whose analyzed terms are absent from the fitted
vocabulary transforms (without error, the transformation is total) to the
zero vector, and every similarity score in the resulting ranking is 0. -/
theorem oov_query_all_zero (sw : List Tok) (docs : List (List Char))
    (q : List Char)
    (h : ∀ t ∈ analyze sw (preprocess_text q), t ∉ vocabOf sw docs) :
    (∀ x ∈ transform sw docs (preprocess_text q), x = 0) ∧
    (∀ s ∈ simsFor sw docs q, s = 0) ∧
    (∀ i : ℕ, (simsFor sw docs q).getD i 0 = 0) := by
  have hraw : ∀ x ∈ rawVec sw docs (preprocess_text q), x = 0 := by
    rw [rawVec_zero_iff]
    intro t ht hta
    exact h t hta ht
  have hq : ∀ x ∈ transform sw docs (preprocess_text q), x = 0 := by
    unfold transform
    rw [mem_l2normalize_zero_iff]
    exact hraw
  have hsims : ∀ s ∈ simsFor sw docs q, s = 0 := by
    intro s hs
    unfold simsFor at hs
    obtain ⟨d, -, rfl⟩ := List.mem_map.1 hs
    unfold cosSim
    apply dotp_zero_left
    rw [mem_l2normalize_zero_iff]
    exact hq
  exact ⟨hq, hsims, fun i => getD_zero_of_all_zero _ i hsims⟩

/-- Witness for C8: the query "xyz" shares no term with the vocabulary of
the corpus ["space"], and its similarity against document 0 is 0. -/
theorem oov_query_all_zero_witness :
    (simsFor english_stop_words ["space".toList] "xyz".toList).getD 0 0 = 0 :=
  (oov_query_all_zero english_stop_words ["space".toList] "xyz".toList
    (by decide)).2.2 0

/-! Concrete evaluations for the tie-breaking scenario. -/

theorem l2normalize_one : l2normalize [(1 : ℝ)] = [1] := by
  have h : l2norm [(1 : ℝ)] = 1 := by
    unfold l2norm sumSq
    simp
  unfold l2normalize
  rw [h, if_neg one_ne_zero]
  norm_num

theorem cosSim_one_one : cosSim [(1 : ℝ)] [(1 : ℝ)] = 1 := by
  unfold cosSim
  rw [l2normalize_one]
  unfold dotp
  simp

theorem transform_space_single :
    transform english_stop_words ["space".toList] "space".toList = [1] := by
  have hv : vocabOf english_stop_words ["space".toList] = ["space".toList] := by
    decide
  have hdf : dfOf english_stop_words ["space".toList] "space".toList = 1 := by
    decide
  have htf : tfOf english_stop_words "space".toList "space".toList = 1 := by
    decide
  have hidf : idfOf english_stop_words ["space".toList] "space".toList = 1 := by
    unfold idfOf
    rw [hdf]
    norm_num
  have hraw : rawVec english_stop_words ["space".toList] "space".toList = [1] := by
    unfold rawVec
    rw [hv, List.map_cons, List.map_nil, htf, hidf]
    norm_num
  unfold transform
  rw [hraw, l2normalize_one]

theorem transform_space_tie :
    transform english_stop_words ["space".toList, "space".toList]
      "space".toList = [1] := by
  have hv : vocabOf english_stop_words ["space".toList, "space".toList] =
      ["space".toList] := by decide
  have hdf : dfOf english_stop_words ["space".toList, "space".toList]
      "space".toList = 2 := by decide
  have htf : tfOf english_stop_words "space".toList "space".toList = 1 := by
    decide
  have hidf : idfOf english_stop_words ["space".toList, "space".toList]
      "space".toList = 1 := by
    unfold idfOf
    rw [hdf]
    norm_num
  have hraw : rawVec english_stop_words ["space".toList, "space".toList]
      "space".toList = [1] := by
    unfold rawVec
    rw [hv, List.map_cons, List.map_nil, htf, hidf]
    norm_num
  unfold transform
  rw [hraw, l2normalize_one]

theorem simsFor_tie :
    simsFor english_stop_words ["space".toList, "space".toList]
      "space".toList = [1, 1] := by
  have hq : preprocess_text "space".toList = "space".toList := by decide
  unfold simsFor
  rw [hq, List.map_cons, List.map_cons, List.map_nil, transform_space_tie,
    cosSim_one_one]

theorem argsort_tie : argsort [(1 : ℝ), 1] = [0, 1] := by
  unfold argsort
  show bsort _ [0, 1] = [0, 1]
  simp only [bsort, binsert, List.getD_cons_zero, List.getD_cons_succ,
    decide_eq_true_eq]
  norm_num

/-- C1 counterexample: with the corpus ["space", "space"] and the query
"space", both documents receive cosine similarity exactly 1, yet the
returned ranking is [1, 0]: on a tie the document with the LARGER index
appears first, contradicting the claimed ascending-index tie-break. -/
theorem get_recommendations_tie_counterexample :
    simsFor english_stop_words ["space".toList, "space".toList]
      "space".toList = [1, 1] ∧
    get_recommendations english_stop_words ["space".toList, "space".toList]
      "space".toList 5 = [1, 0] := by
  refine ⟨simsFor_tie, ?_⟩
  unfold get_recommendations topIndices
  rw [simsFor_tie, argsort_tie]
  decide

/-- Witness for C7: the encoder vector of "space" over the corpus ["space"]
is [1]; the theorem yields that its norm is 1 and its entry non-negative. -/
theorem transform_normalized_witness :
    l2norm (transform english_stop_words ["space".toList] "space".toList) = 1 ∧
    (0 : ℝ) ≤ 1 :=
  ⟨(transform_normalized english_stop_words ["space".toList]
      "space".toList).1.resolve_right (fun hz =>
        one_ne_zero (hz 1 (by
          rw [transform_space_single]
          exact List.mem_cons_self ..))),
   (transform_normalized english_stop_words ["space".toList]
      "space".toList).2.2 1 (by
        rw [transform_space_single]
        exact List.mem_cons_self ..)⟩
